import Mathlib

/-!
Verification of the patch engine of `main.py` (class `MaaFrameworkUpdater`).

The shallow embedding below translates the applier `apply_patch` and the
normalization step `process_diff_content` into Lean.  File contents are
modelled as lists of lines (Python `readlines` / `writelines`); the file
tree is an association list from paths to contents; Python list mutation
(`pop` / `insert`) is modelled by pure functions with Python's exact
semantics (`pop` raises on an out-of-range index, `insert` clamps it).
-/

set_option autoImplicit false

/-- Kind of one line of a hunk body, as classified by the diff parser. -/
inductive LineKind where
  | context
  | added
  | removed
  deriving DecidableEq

/-- One line of a hunk body (unidiff `Line`): the fields `apply_patch` reads
are `is_removed` / `is_added` (here `kind`), `value`, `source_line_no` and
`target_line_no` (1-based, `none` when absent). -/
structure DiffLine where
  kind : LineKind
  value : String
  source_line_no : Option Nat
  target_line_no : Option Nat
  deriving DecidableEq

/-- A hunk: an ordered list of body lines (unidiff `Hunk`). -/
structure Hunk where
  lines : List DiffLine
  deriving DecidableEq

/-- The per-file patch data `apply_patch` consumes from the parsed patch set:
`path` is `patched_file.path`, `target_file` the resolved target path, the
three flags are unidiff's change-kind predicates, `hunks` the content hunks. -/
structure FilePatch where
  path : String
  target_file : String
  is_removed_file : Bool
  is_rename : Bool
  is_added_file : Bool
  hunks : List Hunk
  deriving DecidableEq

/-- Python `list.pop(i)` for a non-negative index `i`: removes the element at
`i` when `i < len`, raises `IndexError` (here `none`) otherwise. -/
def pyPop (l : List String) (i : Nat) : Option (List String) :=
  if i < l.length then some (l.take i ++ l.drop (i + 1)) else none

/-- Python `list.insert(i, x)` for a non-negative index `i`: inserts before
position `i`, clamping `i` to the list length (an index past the end appends;
`insert` never raises). -/
def pyInsert (l : List String) (i : Nat) (x : String) : List String :=
  l.take i ++ x :: l.drop i

/-- One step of the removal loop (`apply_patch` lines 277-283): a removed
line with an integer `source_line_no` pops index `source_line_no - 1`;
every other line is ignored. -/
def applyRemoved (dl : DiffLine) (ls : List String) : Option (List String) :=
  match dl.kind with
  | LineKind.removed =>
      match dl.source_line_no with
      | some n => pyPop ls (n - 1)
      | none => some ls
  | _ => some ls

/-- One step of the insertion loop (`apply_patch` lines 287-295): an added
line with an integer `target_line_no` inserts its value at index
`target_line_no - 1`; every other line is ignored. -/
def applyAdded (dl : DiffLine) (ls : List String) : List String :=
  match dl.kind with
  | LineKind.added =>
      match dl.target_line_no with
      | some n => pyInsert ls (n - 1) dl.value
      | none => ls
  | _ => ls

/-- Run `applyRemoved` over a list of body lines, aborting on the first
out-of-range pop (the Python `IndexError` aborts the whole apply). -/
def remFold : List DiffLine → List String → Option (List String)
  | [], ls => some ls
  | dl :: dls, ls =>
      match applyRemoved dl ls with
      | some ls1 => remFold dls ls1
      | none => none

/-- Run `applyAdded` over a list of body lines (insertion never fails). -/
def insFold : List DiffLine → List String → List String
  | [], ls => ls
  | dl :: dls, ls => insFold dls (applyAdded dl ls)

/-- The removal loop over a list of hunks, each hunk's lines processed in
reverse (`for diff_line in reversed(hunk)`). -/
def remHunks : List Hunk → List String → Option (List String)
  | [], ls => some ls
  | h :: hs, ls =>
      match remFold h.lines.reverse ls with
      | some ls1 => remHunks hs ls1
      | none => none

/-- The insertion loop over a list of hunks in order, each hunk's lines in
order (`for hunk in patched_file: for diff_line in hunk`). -/
def insHunks : List Hunk → List String → List String
  | [], ls => ls
  | h :: hs, ls => insHunks hs (insFold h.lines ls)

/-- The removal pass of `apply_patch` (lines 275-283): hunks are traversed
in reverse (`for hunk in reversed(list(patched_file))`). -/
def removePass (hunks : List Hunk) (ls : List String) : Option (List String) :=
  remHunks hunks.reverse ls

/-- The insertion pass of `apply_patch` (lines 286-295): hunks in order. -/
def insertPass (hunks : List Hunk) (ls : List String) : List String :=
  insHunks hunks ls

/-- The whole content edit of one file (`apply_patch` lines 270-298):
removal pass, then insertion pass; `none` models the `IndexError` abort. -/
def applyContent (hunks : List Hunk) (ls : List String) : Option (List String) :=
  match removePass hunks ls with
  | some ls1 => some (insertPass hunks ls1)
  | none => none

/-- All body lines of a list of hunks, in document order. -/
def allLines (hunks : List Hunk) : List DiffLine :=
  (hunks.map Hunk.lines).flatten

/-- The file tree under the working directory: an association list from
relative paths to file contents (lists of lines). -/
abbrev FS : Type := List (String × List String)

/-- `os.path.exists` on the modelled tree. -/
def fsExists (fs : FS) (p : String) : Bool :=
  fs.any (fun e => e.1 == p)

/-- Reading a file (`open(p).readlines()`): `none` when the path is absent. -/
def fsGet (fs : FS) (p : String) : Option (List String) :=
  (fs.find? (fun e => e.1 == p)).map (fun e => e.2)

/-- `os.remove`: drop every entry stored under path `p`. -/
def fsRemove (fs : FS) (p : String) : FS :=
  fs.filter (fun e => !(e.1 == p))

/-- Writing a file (`open(p, "w")` followed by `writelines`): replace the
contents stored under `p`. -/
def fsSet (fs : FS) (p : String) (v : List String) : FS :=
  (p, v) :: fsRemove fs p

/-- `os.rename(src, dst)`: move the contents of `src` to `dst` (overwriting
`dst`); a no-op when `src` is absent (the code only calls it when it exists). -/
def fsRename (fs : FS) (src dst : String) : FS :=
  match fsGet fs src with
  | some v => fsSet (fsRemove fs src) dst v
  | none => fs

/-- The per-file body of `apply_patch`'s loop (lines 229-302).  `none`
models an exception aborting the whole apply; the `some` results include
the tolerated skip cases (`continue` in the source). -/
def applyFile (fs : FS) (pf : FilePatch) : Option FS :=
  if pf.is_removed_file then
    if fsExists fs pf.path then some (fsRemove fs pf.path) else some fs
  else if pf.is_rename && !(fsExists fs pf.path) then
    some fs
  else
    let fs1 := if pf.is_rename then fsRename fs pf.path pf.target_file else fs
    let cur := if pf.is_rename then pf.target_file else pf.path
    match fsGet fs1 cur with
    | some lines =>
        match applyContent pf.hunks lines with
        | some out => some (fsSet fs1 cur out)
        | none => none
    | none =>
        if pf.is_added_file then
          match applyContent pf.hunks [] with
          | some out => some (fsSet fs1 cur out)
          | none => none
        else
          some fs1

/-- The loop of `apply_patch` over the parsed patch set: returns the tree at
the point the loop stopped and whether every file patch went through. -/
def applyAll : FS → List FilePatch → FS × Bool
  | fs, [] => (fs, true)
  | fs, pf :: ps =>
      match applyFile fs pf with
      | some fs1 => applyAll fs1 ps
      | none => (fs, false)

/-- The manifest object parsed from `interface.json`: a JSON object with at
least a `version` and a `url` field. -/
structure Manifest where
  version : String
  url : String
  deriving DecidableEq

/-- The state `apply_patch` touches: the process working directory and the
file tree under `base_dir`.  The manifest is not separate state: it is the
file stored at the relative path `interface.json` inside this tree, and is
itself a possible FilePatch target (the source's own comment at line 197:
`assets/interface.json to interface.json`). -/
structure World where
  cwd : String
  fs : FS

/-- The `try` body of `apply_patch` (lines 215-311): `os.chdir(base_dir)`,
the per-file loop over the tree (which may itself rewrite the file
`interface.json`), then — only when every file succeeded — `open
("interface.json", "r+")` / `json.load` / replace `version` / `json.dump`
(lines 304-309) followed by `os.chdir(original_cwd)` (line 310).  `load`
and `save` stand for the external `json` library's decoding of the manifest
file's lines and re-encoding of the updated object; a failing `open` (file
deleted by a patch) or `json.load` (file garbled by a patch) raises before
anything is written back.  A `none` result models an exception, with the
state at the moment of the raise (the working directory is still
`base_dir` there). -/
def applyPatchBody (load : List String → Option Manifest)
    (save : Manifest → List String) (w : World) (base_dir : String)
    (ps : List FilePatch) (latest : String) : Option Bool × World :=
  let w1 : World := { w with cwd := base_dir }
  let r := applyAll w1.fs ps
  cond r.2
    (match fsGet r.1 "interface.json" with
     | some ls =>
         match load ls with
         | some m =>
             (some true,
               { cwd := w.cwd,
                 fs := fsSet r.1 "interface.json"
                   (save { m with version := latest }) })
         | none => (none, { cwd := base_dir, fs := r.1 })
     | none => (none, { cwd := base_dir, fs := r.1 }))
    (none, { cwd := base_dir, fs := r.1 })

/-- The `except`/`finally` wrapper of `apply_patch` (lines 312-316): an
exception becomes the return value `False`, and the `finally` clause runs
`os.chdir(original_cwd)` on every exit path. -/
def tryFinallyRestore (saved : String) (r : Option Bool × World) : Bool × World :=
  match r with
  | (some b, w) => (b, { w with cwd := saved })
  | (none, w) => (false, { w with cwd := saved })

/-- `apply_patch` (lines 211-316) over the modelled state: saves the working
directory, runs the body, and restores the directory in `finally`. -/
def applyPatch (load : List String → Option Manifest)
    (save : Manifest → List String) (w : World) (base_dir : String)
    (ps : List FilePatch) (latest : String) : Bool × World :=
  tryFinallyRestore w.cwd (applyPatchBody load save w base_dir ps latest)

/-- Modelled from the spec: the manifest is "a manifest file (JSON object)
with at least a `version` field (string) and a `url` field"; `json` is the
standard library, external to this repository's source.  A demonstration
codec storing the two fields on two lines, used to instantiate the `load`
and `save` parameters of `applyPatch` in concrete runs. -/
def demoLoad : List String → Option Manifest
  | [v, u] => some { version := v, url := u }
  | _ => none

/-- The matching demonstration encoder for `demoLoad`. -/
def demoSave (m : Manifest) : List String :=
  [m.version, m.url]

/-- One step of an edit script relating a source file to a target file:
`ctx`/`skip` keep a line (listed as a context line in some hunk, or lying
between hunks), `rem` deletes a source line, `add` inserts a target line. -/
inductive ScriptStep where
  | ctx (v : String)
  | rem (v : String)
  | add (v : String)
  | skip (v : String)
  deriving DecidableEq

/-- `DiffSpec s xs ys` holds when the edit script `s` transforms the line
sequence `xs` into `ys`; this is what it means for a unified diff to have
been produced by diffing `xs` against `ys`. -/
inductive DiffSpec : List ScriptStep → List String → List String → Prop where
  | nil : DiffSpec [] [] []
  | ctx {s : List ScriptStep} {xs ys : List String} (v : String) :
      DiffSpec s xs ys → DiffSpec (ScriptStep.ctx v :: s) (v :: xs) (v :: ys)
  | rem {s : List ScriptStep} {xs ys : List String} (v : String) :
      DiffSpec s xs ys → DiffSpec (ScriptStep.rem v :: s) (v :: xs) ys
  | add {s : List ScriptStep} {xs ys : List String} (v : String) :
      DiffSpec s xs ys → DiffSpec (ScriptStep.add v :: s) xs (v :: ys)
  | skip {s : List ScriptStep} {xs ys : List String} (v : String) :
      DiffSpec s xs ys → DiffSpec (ScriptStep.skip v :: s) (v :: xs) (v :: ys)

/-- Modelled from the spec: the diff parser (the external `unidiff` library,
not part of this repository's source) assigns 1-based line numbers by running
counters seeded from the hunk starts, incremented per Context/Removed line
for the source and per Context/Added line for the target (spec section 4.1).
`numberScript s t script` emits the hunk body lines of a script whose next
source line is `s` and next target line is `t`; a `skip` step is a line not
listed in any hunk and advances both counters. -/
def numberScript : Nat → Nat → List ScriptStep → List DiffLine
  | _, _, [] => []
  | s, t, ScriptStep.ctx v :: rest =>
      ⟨LineKind.context, v, some s, some t⟩ :: numberScript (s + 1) (t + 1) rest
  | s, t, ScriptStep.rem v :: rest =>
      ⟨LineKind.removed, v, some s, none⟩ :: numberScript (s + 1) t rest
  | s, t, ScriptStep.add v :: rest =>
      ⟨LineKind.added, v, none, some t⟩ :: numberScript s (t + 1) rest
  | s, t, ScriptStep.skip _ :: rest => numberScript (s + 1) (t + 1) rest

/-- The lines of the source file that survive the script's removals: the
values of its `ctx` and `skip` steps. -/
def keepVals : List ScriptStep → List String
  | [] => []
  | ScriptStep.ctx v :: s => v :: keepVals s
  | ScriptStep.skip v :: s => v :: keepVals s
  | ScriptStep.rem _ :: s => keepVals s
  | ScriptStep.add _ :: s => keepVals s

/-- The `source_line_no` of a removed body line, `none` for other lines. -/
def remLineNo (dl : DiffLine) : Option Nat :=
  match dl.kind with
  | LineKind.removed => dl.source_line_no
  | _ => none

/-- The `target_line_no` of an added body line, `none` for other lines. -/
def addLineNo (dl : DiffLine) : Option Nat :=
  match dl.kind with
  | LineKind.added => dl.target_line_no
  | _ => none

/-- Source line numbers of the removed lines in document order. -/
def docRemNos (hunks : List Hunk) : List Nat :=
  (allLines hunks).filterMap remLineNo

/-- Target line numbers of the added lines in document order. -/
def docAddNos (hunks : List Hunk) : List Nat :=
  (allLines hunks).filterMap addLineNo

/-- Source line numbers of the removed lines in the order the removal pass
of `apply_patch` processes them: hunks reversed, each hunk's lines reversed. -/
def procRemNos (hunks : List Hunk) : List Nat :=
  (hunks.reverse.map (fun h => h.lines.reverse.filterMap remLineNo)).flatten

/-- Target line numbers of the added lines in the order the insertion pass
of `apply_patch` processes them: hunks in order, lines in order. -/
def procAddNos (hunks : List Hunk) : List Nat :=
  (hunks.map (fun h => h.lines.filterMap addLineNo)).flatten

/-- Number of removed body lines across all hunks. -/
def removedCount (hunks : List Hunk) : Nat :=
  ((allLines hunks).filter (fun dl => dl.kind == LineKind.removed)).length

/-- Number of added body lines across all hunks. -/
def addedCount (hunks : List Hunk) : Nat :=
  ((allLines hunks).filter (fun dl => dl.kind == LineKind.added)).length

/-- Python `str.replace(pat, rep)` restricted to a non-empty pattern, on
character lists, with an explicit fuel (one unit per consumed character):
scan left to right, replace each non-overlapping occurrence, and resume
after the replaced occurrence. -/
def replaceFuel (pat rep : List Char) : Nat → List Char → List Char
  | _, [] => []
  | 0, c :: s => c :: s
  | n + 1, c :: s =>
      if pat.isPrefixOf (c :: s) then
        rep ++ replaceFuel pat rep n ((c :: s).drop pat.length)
      else
        c :: replaceFuel pat rep n s

/-- Python `str.replace(pat, rep)` for a non-empty `pat`: the fuel
`s.length` always suffices. -/
def replaceAll (pat rep s : List Char) : List Char :=
  replaceFuel pat rep s.length s

/-- The packaging path fragment stripped by `process_diff_content`. -/
def assetsPat : List Char := "assets/".toList

/-- The normalization step of `process_diff_content` (line 198):
`diff_content.replace("assets/", "")`, applied to the whole diff text. -/
def processDiffContent (s : List Char) : List Char :=
  replaceAll assetsPat [] s

/-- Join a list of lines into one text with a newline character between
consecutive lines. -/
def joinNL : List (List Char) → List Char
  | [] => []
  | [l] => l
  | l :: l2 :: ls => l ++ '\n' :: joinNL (l2 :: ls)

/-- Scenario A of the spec: a diff of `["a\n","b\n","c\n"]` that removes
line 2 and adds `"x\n"` as new line 2, parsed into one hunk. -/
def scenarioHunks : List Hunk :=
  [⟨[⟨LineKind.context, "a\n", some 1, some 1⟩,
     ⟨LineKind.removed, "b\n", some 2, none⟩,
     ⟨LineKind.added, "x\n", none, some 2⟩,
     ⟨LineKind.context, "c\n", some 3, some 3⟩]⟩]

/-- A tree holding only the rename target, used against `renameMissingPatch`. -/
def renameMissingFS : FS := [("new.txt", ["a\n"])]

/-- A rename patch whose source path is absent from `renameMissingFS` and
which carries one content hunk (an added line). -/
def renameMissingPatch : FilePatch :=
  { path := "old.txt", target_file := "new.txt",
    is_removed_file := false, is_rename := true, is_added_file := false,
    hunks := [⟨[⟨LineKind.context, "a\n", some 1, some 1⟩,
                ⟨LineKind.added, "x\n", none, some 2⟩]⟩] }

/-- The edit script behind Scenario A. -/
def scenarioScript : List ScriptStep :=
  [ScriptStep.ctx "a\n", ScriptStep.rem "b\n", ScriptStep.add "x\n",
   ScriptStep.ctx "c\n"]

/-- Scenario A as a Modified file patch for `f.txt`. -/
def scenarioPatch : FilePatch :=
  { path := "f.txt", target_file := "b/f.txt",
    is_removed_file := false, is_rename := false, is_added_file := false,
    hunks := scenarioHunks }

/-- A tree holding the Scenario A source file. -/
def scenarioFS : FS := [("f.txt", ["a\n", "b\n", "c\n"])]

/-- A Removed-file patch for `gone.txt`. -/
def removedPatch : FilePatch :=
  { path := "gone.txt", target_file := "/dev/null",
    is_removed_file := true, is_rename := false, is_added_file := false,
    hunks := [] }

/-- A tree holding the file `removedPatch` deletes plus one other file. -/
def removedFS : FS := [("gone.txt", ["g\n"]), ("keep.txt", ["k\n"])]

/-- A hunk-less rename patch from `old.txt` to `new.txt`. -/
def renameOnlyPatch : FilePatch :=
  { path := "old.txt", target_file := "new.txt",
    is_removed_file := false, is_rename := true, is_added_file := false,
    hunks := [] }

/-- A tree holding the rename source plus one other file. -/
def renameOnlyFS : FS := [("old.txt", ["o\n"]), ("other.txt", ["z\n"])]

/-- A tree whose manifest `interface.json` (version line `v1`) is itself a
patch target, plus one data file. -/
def cexFS : FS := [("interface.json", ["v1", "u"]), ("data.txt", ["d1"])]

/-- A FilePatch that rewrites the version line of `interface.json` from
`v1` to `v9`. -/
def cexManifestPatch : FilePatch :=
  { path := "interface.json", target_file := "b/interface.json",
    is_removed_file := false, is_rename := false, is_added_file := false,
    hunks := [⟨[⟨LineKind.removed, "v1", some 1, none⟩,
                ⟨LineKind.added, "v9", none, some 1⟩,
                ⟨LineKind.context, "u", some 2, some 2⟩]⟩] }

/-- A FilePatch whose content edit fails: its removed line's source
position 9 is out of range for the one-line file `data.txt`. -/
def cexFailingPatch : FilePatch :=
  { path := "data.txt", target_file := "b/data.txt",
    is_removed_file := false, is_rename := false, is_added_file := false,
    hunks := [⟨[⟨LineKind.removed, "zzz", some 9, none⟩]⟩] }

/-- The starting state for the C6 counterexample run. -/
def cexWorld : World := { cwd := "/home", fs := cexFS }

/-- A starting state whose patch set does not touch `interface.json`. -/
def amWorld : World :=
  { cwd := "/home",
    fs := [("interface.json", ["v1", "u"]), ("data.txt", ["d1", "d2"])] }

/-- A FilePatch on `data.txt` only (removes its second line). -/
def amPatch : FilePatch :=
  { path := "data.txt", target_file := "b/data.txt",
    is_removed_file := false, is_rename := false, is_added_file := false,
    hunks := [⟨[⟨LineKind.context, "d1", some 1, some 1⟩,
                ⟨LineKind.removed, "d2", some 2, none⟩]⟩] }

theorem pyPop_append (a c : List String) (b : String) :
    pyPop (a ++ b :: c) a.length = some (a ++ c) := by
  unfold pyPop
  rw [if_pos (by simp)]
  congr 1
  have h1 : a.length + 1 - a.length = 1 := by omega
  rw [List.take_append_eq_append_take, List.take_length, Nat.sub_self,
    List.take_zero, List.append_nil, List.drop_append_eq_append_drop,
    List.drop_eq_nil_of_le (by omega), List.nil_append, h1,
    List.drop_succ_cons, List.drop_zero]

theorem pyPop_length {l l' : List String} {i : Nat} (h : pyPop l i = some l') :
    l'.length + 1 = l.length := by
  unfold pyPop at h
  by_cases hi : i < l.length
  · rw [if_pos hi] at h
    cases h
    simp only [List.length_append, List.length_take, List.length_drop]
    omega
  · rw [if_neg hi] at h
    cases h

theorem pyInsert_append (a c : List String) (v : String) :
    pyInsert (a ++ c) a.length v = a ++ v :: c := by
  unfold pyInsert
  rw [List.take_append_eq_append_take, List.take_length, Nat.sub_self,
    List.take_zero, List.append_nil, List.drop_append_eq_append_drop,
    List.drop_length, Nat.sub_self, List.drop_zero, List.nil_append]

theorem pyInsert_length (l : List String) (i : Nat) (v : String) :
    (pyInsert l i v).length = l.length + 1 := by
  unfold pyInsert
  simp only [List.length_append, List.length_take, List.length_cons,
    List.length_drop]
  omega

theorem pyInsert_oob {l : List String} {i : Nat} (v : String)
    (h : l.length ≤ i) : pyInsert l i v = l ++ [v] := by
  unfold pyInsert
  rw [List.take_of_length_le h, List.drop_eq_nil_of_le h]

theorem remFold_append (u v : List DiffLine) (ls : List String) :
    remFold (u ++ v) ls = (remFold u ls).bind (remFold v) := by
  induction u generalizing ls with
  | nil => simp [remFold]
  | cons dl u ih =>
      simp only [List.cons_append, remFold]
      cases applyRemoved dl ls with
      | some ls1 => exact ih ls1
      | none => rfl

theorem insFold_append (u v : List DiffLine) (ls : List String) :
    insFold (u ++ v) ls = insFold v (insFold u ls) := by
  induction u generalizing ls with
  | nil => simp [insFold]
  | cons dl u ih => simp only [List.cons_append, insFold]; exact ih _

theorem removePass_eq (hunks : List Hunk) (ls : List String) :
    removePass hunks ls = remFold (allLines hunks).reverse ls := by
  induction hunks generalizing ls with
  | nil => rfl
  | cons h hs ih =>
      have hstep : removePass (h :: hs) ls
          = (removePass hs ls).bind (remFold h.lines.reverse) := by
        unfold removePass
        rw [List.reverse_cons]
        have : ∀ (u : List Hunk) (ls : List String),
            remHunks (u ++ [h]) ls
              = (remHunks u ls).bind (remFold h.lines.reverse) := by
          intro u
          induction u with
          | nil =>
              intro ls
              simp only [List.nil_append, remHunks, Option.some_bind]
              cases remFold h.lines.reverse ls <;> rfl
          | cons h2 u ih2 =>
              intro ls
              simp only [List.cons_append, remHunks]
              cases remFold h2.lines.reverse ls with
              | some ls1 => exact ih2 ls1
              | none => rfl
        exact this hs.reverse ls
      rw [hstep, ih]
      have hall : allLines (h :: hs) = h.lines ++ allLines hs := by
        simp [allLines]
      rw [hall, List.reverse_append, remFold_append]

theorem insertPass_eq (hunks : List Hunk) (ls : List String) :
    insertPass hunks ls = insFold (allLines hunks) ls := by
  induction hunks generalizing ls with
  | nil => rfl
  | cons h hs ih =>
      have hall : allLines (h :: hs) = h.lines ++ allLines hs := by
        simp [allLines]
      show insHunks (h :: hs) ls = _
      rw [hall, insFold_append]
      exact ih _

theorem remFold_numberScript {script : List ScriptStep} {xs ys : List String}
    (h : DiffSpec script xs ys) :
    ∀ (t : Nat) (pre : List String),
      remFold (numberScript (pre.length + 1) t script).reverse (pre ++ xs)
        = some (pre ++ keepVals script) := by
  induction h with
  | nil =>
      intro t pre
      simp [numberScript, keepVals, remFold]
  | ctx v h ih =>
      intro t pre
      have ihs := ih (t + 1) (pre ++ [v])
      rw [show (pre ++ [v]).length + 1 = pre.length + 1 + 1 by simp] at ihs
      simp only [numberScript, List.reverse_cons, remFold_append]
      rw [List.append_cons pre v _, ihs]
      simp [remFold, applyRemoved, keepVals]
  | rem v h ih =>
      intro t pre
      have ihs := ih t (pre ++ [v])
      rw [show (pre ++ [v]).length + 1 = pre.length + 1 + 1 by simp] at ihs
      simp only [numberScript, List.reverse_cons, remFold_append]
      rw [List.append_cons pre v _, ihs]
      simp only [Option.some_bind, remFold, applyRemoved, Nat.add_sub_cancel]
      rw [← List.append_cons pre v _, pyPop_append]
      simp [keepVals]
  | add v h ih =>
      intro t pre
      have ihs := ih (t + 1) pre
      simp only [numberScript, List.reverse_cons, remFold_append]
      rw [ihs]
      simp [remFold, applyRemoved, keepVals]
  | skip v h ih =>
      intro t pre
      have ihs := ih (t + 1) (pre ++ [v])
      rw [show (pre ++ [v]).length + 1 = pre.length + 1 + 1 by simp] at ihs
      simp only [numberScript]
      rw [List.append_cons pre v _, ihs]
      simp [keepVals]

theorem insFold_numberScript {script : List ScriptStep} {xs ys : List String}
    (h : DiffSpec script xs ys) :
    ∀ (s : Nat) (pre : List String),
      insFold (numberScript s (pre.length + 1) script) (pre ++ keepVals script)
        = pre ++ ys := by
  induction h with
  | nil =>
      intro s pre
      simp [numberScript, keepVals, insFold]
  | ctx v h ih =>
      intro s pre
      have ihs := ih (s + 1) (pre ++ [v])
      rw [show (pre ++ [v]).length + 1 = pre.length + 1 + 1 by simp] at ihs
      simp only [numberScript, keepVals, insFold, applyAdded]
      rw [List.append_cons pre v _, ihs]
      simp
  | rem v h ih =>
      intro s pre
      have ihs := ih (s + 1) pre
      simp only [numberScript, keepVals, insFold, applyAdded]
      rw [ihs]
  | add v h ih =>
      intro s pre
      have ihs := ih s (pre ++ [v])
      rw [show (pre ++ [v]).length + 1 = pre.length + 1 + 1 by simp] at ihs
      simp only [numberScript, keepVals, insFold, applyAdded,
        Nat.add_sub_cancel]
      rw [pyInsert_append, List.append_cons pre v _, ihs]
      simp
  | skip v h ih =>
      intro s pre
      have ihs := ih (s + 1) (pre ++ [v])
      rw [show (pre ++ [v]).length + 1 = pre.length + 1 + 1 by simp] at ihs
      simp only [numberScript, keepVals]
      rw [List.append_cons pre v _, ihs]
      simp

theorem applyContent_of_diffSpec {script : List ScriptStep}
    {xs ys : List String} {hunks : List Hunk} (h : DiffSpec script xs ys)
    (hh : allLines hunks = numberScript 1 1 script) :
    applyContent hunks xs = some ys := by
  have hrem := remFold_numberScript h 1 []
  simp only [List.length_nil, List.nil_append, Nat.zero_add] at hrem
  have hins := insFold_numberScript h 1 []
  simp only [List.length_nil, List.nil_append, Nat.zero_add] at hins
  unfold applyContent
  rw [removePass_eq, hh, hrem]
  show some (insertPass hunks (keepVals script)) = some ys
  rw [insertPass_eq, hh, hins]

theorem fsGet_fsSet_self (fs : FS) (p : String) (v : List String) :
    fsGet (fsSet fs p v) p = some v := by
  unfold fsGet fsSet
  rw [List.find?_cons_of_pos _ (by simp)]
  rfl

theorem fsGet_fsRemove_ne {p q : String} (fs : FS) (h : q ≠ p) :
    fsGet (fsRemove fs p) q = fsGet fs q := by
  induction fs with
  | nil => rfl
  | cons e fs ih =>
      show fsGet (List.filter _ (e :: fs)) q = _
      rw [List.filter_cons]
      by_cases he : e.1 = p
      · rw [if_neg (by simp [he])]
        show fsGet (fsRemove fs p) q = _
        rw [ih]
        unfold fsGet
        rw [List.find?_cons_of_neg _ (by simp [he]; exact fun hq => h hq.symm)]
      · rw [if_pos (by simp [he])]
        unfold fsGet
        by_cases heq : e.1 = q
        · rw [List.find?_cons_of_pos _ (by simp [heq]),
            List.find?_cons_of_pos _ (by simp [heq])]
        · rw [List.find?_cons_of_neg _ (by simp [heq]),
            List.find?_cons_of_neg _ (by simp [heq])]
          exact ih

theorem fsGet_fsRemove_self (fs : FS) (p : String) :
    fsGet (fsRemove fs p) p = none := by
  induction fs with
  | nil => rfl
  | cons e fs ih =>
      show fsGet (List.filter _ (e :: fs)) p = none
      rw [List.filter_cons]
      by_cases he : e.1 = p
      · rw [if_neg (by simp [he])]
        exact ih
      · rw [if_pos (by simp [he])]
        unfold fsGet
        rw [List.find?_cons_of_neg _ (by simp [he])]
        exact ih

theorem fsGet_fsSet_ne {p q : String} (fs : FS) (v : List String)
    (h : q ≠ p) : fsGet (fsSet fs p v) q = fsGet fs q := by
  unfold fsSet
  show fsGet ((p, v) :: fsRemove fs p) q = _
  unfold fsGet
  rw [List.find?_cons_of_neg _ (by simp; exact fun hq => h hq.symm)]
  exact fsGet_fsRemove_ne fs h

theorem fsExists_eq_isSome (fs : FS) (p : String) :
    fsExists fs p = (fsGet fs p).isSome := by
  unfold fsExists fsGet
  induction fs with
  | nil => rfl
  | cons e fs ih =>
      rw [List.any_cons]
      by_cases he : e.1 = p
      · rw [List.find?_cons_of_pos _ (by simp [he])]
        simp [he]
      · rw [List.find?_cons_of_neg _ (by simp [he])]
        have hb : (e.1 == p) = false := by simp [he]
        rw [hb, Bool.false_or]
        exact ih

theorem fsExists_fsRemove_self (fs : FS) (p : String) :
    fsExists (fsRemove fs p) p = false := by
  rw [fsExists_eq_isSome, fsGet_fsRemove_self]
  rfl

/-- C1: round-trip — for any file and any well-formed unified diff produced
by diffing it against a second file (an edit script related to the two files
by `DiffSpec`, numbered by the parser's running counters and split into
hunks in any way), applying the parsed patch to a tree containing the file
stores exactly the second file at its path. -/
theorem apply_parse_roundtrip {fs : FS} {pf : FilePatch}
    {script : List ScriptStep} {src dst : List String}
    (hd : DiffSpec script src dst)
    (hh : allLines pf.hunks = numberScript 1 1 script)
    (h1 : pf.is_removed_file = false) (h2 : pf.is_rename = false)
    (hF : fsGet fs pf.path = some src) :
    applyFile fs pf = some (fsSet fs pf.path dst) ∧
    fsGet (fsSet fs pf.path dst) pf.path = some dst := by
  refine ⟨?_, fsGet_fsSet_self fs pf.path dst⟩
  have hc := applyContent_of_diffSpec hd hh
  simp [applyFile, h1, h2, hF, hc]

theorem apply_parse_roundtrip_witness :
    applyFile scenarioFS scenarioPatch
      = some (fsSet scenarioFS "f.txt" ["a\n", "x\n", "c\n"]) ∧
    fsGet (fsSet scenarioFS "f.txt" ["a\n", "x\n", "c\n"]) "f.txt"
      = some ["a\n", "x\n", "c\n"] :=
  apply_parse_roundtrip
    (DiffSpec.ctx "a\n" (DiffSpec.rem "b\n"
      (DiffSpec.add "x\n" (DiffSpec.ctx "c\n" DiffSpec.nil))))
    (by decide) rfl rfl (by decide)

/-- C2 counterexample: a Renamed FilePatch whose source path is absent is
skipped entirely — the tree is returned unchanged even though the target
path exists and the patch carries a content hunk whose application would
have changed that file, contradicting the claim that the per-file procedure
continues at the target path. -/
theorem rename_missing_source_counterexample :
    applyFile renameMissingFS renameMissingPatch = some renameMissingFS ∧
    fsGet renameMissingFS renameMissingPatch.target_file = some ["a\n"] ∧
    applyContent renameMissingPatch.hunks ["a\n"] = some ["a\n", "x\n"] ∧
    some (["a\n"] : List String) ≠ some ["a\n", "x\n"] := by
  refine ⟨by decide, by decide, by decide, by decide⟩

/-- C2 amended: when a Renamed FilePatch's source path does not exist under
the root, the applier skips the rename and also the whole rest of that
file's procedure (the `continue` at line 255 moves to the next FilePatch),
leaving the tree unchanged; no hunk is applied at the target path. -/
theorem rename_missing_source_skips_file (fs : FS) (pf : FilePatch)
    (h1 : pf.is_removed_file = false) (h2 : pf.is_rename = true)
    (h3 : fsExists fs pf.path = false) :
    applyFile fs pf = some fs := by
  simp [applyFile, h1, h2, h3]

theorem rename_missing_source_skips_file_witness :
    renameMissingPatch.is_removed_file = false ∧
    renameMissingPatch.is_rename = true ∧
    fsExists renameMissingFS renameMissingPatch.path = false ∧
    applyFile renameMissingFS renameMissingPatch = some renameMissingFS :=
  ⟨rfl, rfl, by decide,
    rename_missing_source_skips_file renameMissingFS renameMissingPatch
      rfl rfl (by decide)⟩

/-- C7: a Removed FilePatch deletes the target path when it exists and is a
tolerated no-op when it does not; in both cases no hunk is applied, and
running the same patch a second time against the already-deleted file
succeeds and changes nothing. -/
theorem removed_file_tolerance (fs : FS) (pf : FilePatch)
    (h : pf.is_removed_file = true) :
    applyFile fs pf
      = some (cond (fsExists fs pf.path) (fsRemove fs pf.path) fs) ∧
    (applyFile fs pf).bind (fun fs1 => applyFile fs1 pf)
      = applyFile fs pf := by
  cases hex : fsExists fs pf.path with
  | true =>
      have hself := fsExists_fsRemove_self fs pf.path
      constructor
      · simp [applyFile, h, hex]
      · simp [applyFile, h, hex, hself]
  | false =>
      constructor
      · simp [applyFile, h, hex]
      · simp [applyFile, h, hex]

theorem removed_file_tolerance_witness :
    removedPatch.is_removed_file = true ∧
    (applyFile removedFS removedPatch
      = some (cond (fsExists removedFS removedPatch.path)
          (fsRemove removedFS removedPatch.path) removedFS) ∧
      (applyFile removedFS removedPatch).bind
          (fun fs1 => applyFile fs1 removedPatch)
        = applyFile removedFS removedPatch) :=
  ⟨rfl, removed_file_tolerance removedFS removedPatch rfl⟩

/-- C8: a Renamed FilePatch with no content hunks only moves the file: the
target path afterwards holds exactly the bytes the source path held before,
the source path is gone, and every other path is untouched. -/
theorem rename_no_hunks_preserves_bytes (fs : FS) (pf : FilePatch)
    (v : List String)
    (h1 : pf.is_removed_file = false) (h2 : pf.is_rename = true)
    (h3 : pf.hunks = []) (h4 : fsGet fs pf.path = some v)
    (h5 : pf.path ≠ pf.target_file) :
    applyFile fs pf
      = some (fsSet (fsRename fs pf.path pf.target_file) pf.target_file v) ∧
    fsGet (fsSet (fsRename fs pf.path pf.target_file) pf.target_file v)
        pf.target_file = some v ∧
    fsGet (fsSet (fsRename fs pf.path pf.target_file) pf.target_file v)
        pf.path = none ∧
    ∀ q, q ≠ pf.path → q ≠ pf.target_file →
      fsGet (fsSet (fsRename fs pf.path pf.target_file) pf.target_file v) q
        = fsGet fs q := by
  have hex : fsExists fs pf.path = true := by
    rw [fsExists_eq_isSome, h4]
    rfl
  have hren : fsRename fs pf.path pf.target_file
      = fsSet (fsRemove fs pf.path) pf.target_file v := by
    unfold fsRename
    rw [h4]
  refine ⟨?_, fsGet_fsSet_self _ _ _, ?_, ?_⟩
  · have hget : fsGet (fsRename fs pf.path pf.target_file) pf.target_file
        = some v := by
      rw [hren]
      exact fsGet_fsSet_self _ _ _
    simp [applyFile, h1, h2, h3, hex, hget, applyContent, removePass,
      remHunks, insertPass, insHunks]
  · rw [fsGet_fsSet_ne _ _ h5, hren, fsGet_fsSet_ne _ _ h5,
      fsGet_fsRemove_self]
  · intro q hq1 hq2
    rw [fsGet_fsSet_ne _ _ hq2, hren, fsGet_fsSet_ne _ _ hq2,
      fsGet_fsRemove_ne _ hq1]

theorem rename_no_hunks_preserves_bytes_witness :
    fsGet renameOnlyFS renameOnlyPatch.path = some ["o\n"] ∧
    applyFile renameOnlyFS renameOnlyPatch
      = some (fsSet (fsRename renameOnlyFS "old.txt" "new.txt") "new.txt"
          ["o\n"]) ∧
    fsGet (fsSet (fsRename renameOnlyFS "old.txt" "new.txt") "new.txt"
        ["o\n"]) "new.txt" = some ["o\n"] ∧
    fsGet (fsSet (fsRename renameOnlyFS "old.txt" "new.txt") "new.txt"
        ["o\n"]) "old.txt" = none ∧
    fsGet (fsSet (fsRename renameOnlyFS "old.txt" "new.txt") "new.txt"
        ["o\n"]) "other.txt" = fsGet renameOnlyFS "other.txt" :=
  ⟨by decide,
    (rename_no_hunks_preserves_bytes renameOnlyFS renameOnlyPatch ["o\n"]
      rfl rfl rfl (by decide) (by decide)).1,
    (rename_no_hunks_preserves_bytes renameOnlyFS renameOnlyPatch ["o\n"]
      rfl rfl rfl (by decide) (by decide)).2.1,
    (rename_no_hunks_preserves_bytes renameOnlyFS renameOnlyPatch ["o\n"]
      rfl rfl rfl (by decide) (by decide)).2.2.1,
    (rename_no_hunks_preserves_bytes renameOnlyFS renameOnlyPatch ["o\n"]
      rfl rfl rfl (by decide) (by decide)).2.2.2 "other.txt"
      (by decide) (by decide)⟩

theorem procRemNos_eq (hunks : List Hunk) :
    procRemNos hunks = (docRemNos hunks).reverse := by
  induction hunks with
  | nil => rfl
  | cons h hs ih =>
      unfold procRemNos docRemNos allLines at *
      simp only [List.reverse_cons, List.map_append, List.flatten_append,
        List.map_cons, List.flatten_cons, List.map_nil, List.flatten_nil,
        List.filterMap_append, List.reverse_append, List.append_nil,
        List.filterMap_reverse] at ih ⊢
      rw [ih]

theorem procAddNos_eq (hunks : List Hunk) :
    procAddNos hunks = docAddNos hunks := by
  induction hunks with
  | nil => rfl
  | cons h hs ih =>
      unfold procAddNos docAddNos allLines at *
      rw [List.map_cons, List.flatten_cons, List.map_cons, List.flatten_cons,
        List.filterMap_append, ih]

/-- C3: under the parser's invariant that removed source line numbers (and
added target line numbers) are strictly increasing in document order, the
removal pass of `apply_patch` (reversed hunks, reversed lines) visits the
removed lines in strictly decreasing `source_line_no` order and the
insertion pass visits the added lines in strictly increasing
`target_line_no` order, and on Scenario A this produces the expected file. -/
theorem edit_order_and_scenario (hunks : List Hunk)
    (hrem : (docRemNos hunks).Pairwise (fun a b => a < b))
    (hadd : (docAddNos hunks).Pairwise (fun a b => a < b)) :
    (procRemNos hunks).Pairwise (fun a b => a > b) ∧
    (procAddNos hunks).Pairwise (fun a b => a < b) ∧
    applyContent scenarioHunks ["a\n", "b\n", "c\n"]
      = some ["a\n", "x\n", "c\n"] := by
  refine ⟨?_, ?_, by decide⟩
  · rw [procRemNos_eq, List.pairwise_reverse]
    exact hrem
  · rw [procAddNos_eq]
    exact hadd

theorem edit_order_and_scenario_witness :
    (docRemNos scenarioHunks).Pairwise (fun a b => a < b) ∧
    (docAddNos scenarioHunks).Pairwise (fun a b => a < b) ∧
    ((procRemNos scenarioHunks).Pairwise (fun a b => a > b) ∧
      (procAddNos scenarioHunks).Pairwise (fun a b => a < b) ∧
      applyContent scenarioHunks ["a\n", "b\n", "c\n"]
        = some ["a\n", "x\n", "c\n"]) :=
  ⟨by decide, by decide,
    edit_order_and_scenario scenarioHunks (by decide) (by decide)⟩

theorem remFold_length {dls : List DiffLine} :
    ∀ {ls out : List String},
      (∀ dl ∈ dls, dl.kind = LineKind.removed →
        dl.source_line_no.isSome = true) →
      remFold dls ls = some out →
      out.length
        + (dls.filter (fun dl => dl.kind == LineKind.removed)).length
        = ls.length := by
  induction dls with
  | nil =>
      intro ls out _ h
      simp only [remFold] at h
      cases h
      simp
  | cons dl dls ih =>
      intro ls out hall h
      simp only [remFold] at h
      cases hstep : applyRemoved dl ls with
      | none => rw [hstep] at h; cases h
      | some ls1 =>
          rw [hstep] at h
          have hrec := ih
            (fun d hd hk => hall d (List.mem_cons_of_mem _ hd) hk) h
          rw [List.filter_cons]
          by_cases hk : dl.kind = LineKind.removed
          · have hsome := hall dl (List.mem_cons_self _ _) hk
            obtain ⟨n, hn⟩ := Option.isSome_iff_exists.mp hsome
            have happ : applyRemoved dl ls = pyPop ls (n - 1) := by
              unfold applyRemoved
              rw [hk, hn]
            have hpop : pyPop ls (n - 1) = some ls1 := by
              rw [← happ, hstep]
            have hlen := pyPop_length hpop
            rw [if_pos (by simp [hk])]
            simp only [List.length_cons]
            omega
          · have hid : applyRemoved dl ls = some ls := by
              unfold applyRemoved
              cases hck : dl.kind with
              | removed => exact absurd hck hk
              | context => rfl
              | added => rfl
            rw [hid] at hstep
            cases hstep
            rw [if_neg (by simp [hk])]
            exact hrec

theorem insFold_length {dls : List DiffLine} :
    ∀ {ls : List String},
      (∀ dl ∈ dls, dl.kind = LineKind.added →
        dl.target_line_no.isSome = true) →
      (insFold dls ls).length
        = ls.length
          + (dls.filter (fun dl => dl.kind == LineKind.added)).length := by
  induction dls with
  | nil =>
      intro ls _
      simp [insFold]
  | cons dl dls ih =>
      intro ls hall
      simp only [insFold]
      rw [ih (fun d hd hk => hall d (List.mem_cons_of_mem _ hd) hk),
        List.filter_cons]
      by_cases hk : dl.kind = LineKind.added
      · have hsome := hall dl (List.mem_cons_self _ _) hk
        obtain ⟨n, hn⟩ := Option.isSome_iff_exists.mp hsome
        have happ : applyAdded dl ls = pyInsert ls (n - 1) dl.value := by
          unfold applyAdded
          rw [hk, hn]
        rw [happ, pyInsert_length, if_pos (by simp [hk])]
        simp only [List.length_cons]
        omega
      · have hid : applyAdded dl ls = ls := by
          unfold applyAdded
          cases hck : dl.kind with
          | added => exact absurd hck hk
          | context => rfl
          | removed => rfl
        rw [hid, if_neg (by simp [hk])]

/-- C4: when a FilePatch's hunks are applied as a content edit (and every
removed line carries a source line number and every added line a target
line number, as the parser guarantees), the resulting line count equals the
original count minus the number of removed lines plus the number of added
lines. -/
theorem line_count_invariant {hunks : List Hunk} {ls out : List String}
    (hall : ∀ dl ∈ allLines hunks,
      (dl.kind = LineKind.removed → dl.source_line_no.isSome = true) ∧
      (dl.kind = LineKind.added → dl.target_line_no.isSome = true))
    (h : applyContent hunks ls = some out) :
    (out.length : Int)
      = (ls.length : Int) - removedCount hunks + addedCount hunks := by
  unfold applyContent at h
  cases hrp : removePass hunks ls with
  | none => rw [hrp] at h; cases h
  | some mid =>
      rw [hrp] at h
      cases h
      rw [removePass_eq] at hrp
      have hrl := remFold_length
        (fun dl hd hk => (hall dl (List.mem_reverse.mp hd)).1 hk) hrp
      rw [List.filter_reverse, List.length_reverse] at hrl
      have hil : (insFold (allLines hunks) mid).length
          = mid.length
            + ((allLines hunks).filter
                (fun dl => dl.kind == LineKind.added)).length :=
        insFold_length (fun dl hd hk => (hall dl hd).2 hk)
      rw [insertPass_eq, hil]
      unfold removedCount addedCount
      omega

theorem line_count_invariant_witness :
    applyContent scenarioHunks ["a\n", "b\n", "c\n"]
      = some ["a\n", "x\n", "c\n"] ∧
    ((["a\n", "x\n", "c\n"] : List String).length : Int)
      = ((["a\n", "b\n", "c\n"] : List String).length : Int)
        - removedCount scenarioHunks + addedCount scenarioHunks :=
  ⟨by decide, line_count_invariant (by decide) (by decide)⟩

/-- C5 counterexample: an Added line whose 1-based target position (5) lies
outside the bounds of the current one-line file does not make the apply
fail — Python's `list.insert` clamps the index, the line is appended, and
the content edit completes with a `some` result. -/
theorem oob_insert_counterexample :
    (["a\n"] : List String).length + 1 < 5 ∧
    applyContent [⟨[⟨LineKind.added, "x\n", none, some 5⟩]⟩] ["a\n"]
      = some ["a\n", "x\n"] :=
  ⟨by decide, by decide⟩

/-- C5 amended: an out-of-bounds Removed source position aborts the apply
(`list.pop` raises `IndexError`, surfaced as a failure), but an
out-of-bounds Added target position does not — `list.insert` clamps the
index, appends the line at the end, and the apply completes successfully. -/
theorem oob_behavior_amended (l : List String) (n t : Nat) (v w : String)
    (hn : l.length < n) (ht : l.length + 1 < t) :
    applyContent [⟨[⟨LineKind.removed, v, some n, none⟩]⟩] l = none ∧
    applyContent [⟨[⟨LineKind.added, w, none, some t⟩]⟩] l
      = some (l ++ [w]) := by
  constructor
  · have hpop : pyPop l (n - 1) = none := by
      unfold pyPop
      rw [if_neg (by omega)]
    simp [applyContent, removePass, remHunks, remFold, applyRemoved, hpop]
  · have hins : pyInsert l (t - 1) w = l ++ [w] := pyInsert_oob w (by omega)
    simp [applyContent, removePass, remHunks, remFold, applyRemoved,
      insertPass, insHunks, insFold, applyAdded, hins]

theorem oob_behavior_amended_witness :
    (["a\n"] : List String).length < 3 ∧
    (["a\n"] : List String).length + 1 < 4 ∧
    (applyContent [⟨[⟨LineKind.removed, "b\n", some 3, none⟩]⟩] ["a\n"]
        = none ∧
      applyContent [⟨[⟨LineKind.added, "y\n", none, some 4⟩]⟩] ["a\n"]
        = some (["a\n"] ++ ["y\n"])) :=
  ⟨by decide, by decide,
    oob_behavior_amended ["a\n"] 3 4 "b\n" "y\n" (by decide) (by decide)⟩

theorem fsGet_fsRename_ne {src dst q : String} (fs : FS)
    (h1 : q ≠ src) (h2 : q ≠ dst) :
    fsGet (fsRename fs src dst) q = fsGet fs q := by
  unfold fsRename
  cases hv : fsGet fs src with
  | none => rfl
  | some v => rw [fsGet_fsSet_ne _ _ h2, fsGet_fsRemove_ne _ h1]

theorem applyFile_frame {fs fs1 : FS} {pf : FilePatch} {q : String}
    (h : applyFile fs pf = some fs1)
    (h1 : q ≠ pf.path) (h2 : q ≠ pf.target_file) :
    fsGet fs1 q = fsGet fs q := by
  have hren : fsGet (fsRename fs pf.path pf.target_file) q = fsGet fs q :=
    fsGet_fsRename_ne fs h1 h2
  cases hrm : pf.is_removed_file with
  | true =>
      cases hex : fsExists fs pf.path with
      | true =>
          rw [show applyFile fs pf = some (fsRemove fs pf.path) by
            simp [applyFile, hrm, hex]] at h
          cases h
          exact fsGet_fsRemove_ne fs h1
      | false =>
          rw [show applyFile fs pf = some fs by
            simp [applyFile, hrm, hex]] at h
          cases h
          rfl
  | false =>
      cases hrn : pf.is_rename with
      | true =>
          cases hex : fsExists fs pf.path with
          | false =>
              rw [show applyFile fs pf = some fs by
                simp [applyFile, hrm, hrn, hex]] at h
              cases h
              rfl
          | true =>
              cases hg : fsGet (fsRename fs pf.path pf.target_file)
                  pf.target_file with
              | some lines =>
                  cases hac : applyContent pf.hunks lines with
                  | some out =>
                      rw [show applyFile fs pf
                          = some (fsSet (fsRename fs pf.path pf.target_file)
                              pf.target_file out) by
                        simp [applyFile, hrm, hrn, hex, hg, hac]] at h
                      cases h
                      rw [fsGet_fsSet_ne _ _ h2]
                      exact hren
                  | none =>
                      rw [show applyFile fs pf = none by
                        simp [applyFile, hrm, hrn, hex, hg, hac]] at h
                      cases h
              | none =>
                  cases had : pf.is_added_file with
                  | true =>
                      cases hac : applyContent pf.hunks [] with
                      | some out =>
                          rw [show applyFile fs pf
                              = some (fsSet
                                  (fsRename fs pf.path pf.target_file)
                                  pf.target_file out) by
                            simp [applyFile, hrm, hrn, hex, hg, had,
                              hac]] at h
                          cases h
                          rw [fsGet_fsSet_ne _ _ h2]
                          exact hren
                      | none =>
                          rw [show applyFile fs pf = none by
                            simp [applyFile, hrm, hrn, hex, hg, had,
                              hac]] at h
                          cases h
                  | false =>
                      rw [show applyFile fs pf
                          = some (fsRename fs pf.path pf.target_file) by
                        simp [applyFile, hrm, hrn, hex, hg, had]] at h
                      cases h
                      exact hren
      | false =>
          cases hg : fsGet fs pf.path with
          | some lines =>
              cases hac : applyContent pf.hunks lines with
              | some out =>
                  rw [show applyFile fs pf = some (fsSet fs pf.path out) by
                    simp [applyFile, hrm, hrn, hg, hac]] at h
                  cases h
                  exact fsGet_fsSet_ne _ _ h1
              | none =>
                  rw [show applyFile fs pf = none by
                    simp [applyFile, hrm, hrn, hg, hac]] at h
                  cases h
          | none =>
              cases had : pf.is_added_file with
              | true =>
                  cases hac : applyContent pf.hunks [] with
                  | some out =>
                      rw [show applyFile fs pf
                          = some (fsSet fs pf.path out) by
                        simp [applyFile, hrm, hrn, hg, had, hac]] at h
                      cases h
                      exact fsGet_fsSet_ne _ _ h1
                  | none =>
                      rw [show applyFile fs pf = none by
                        simp [applyFile, hrm, hrn, hg, had, hac]] at h
                      cases h
              | false =>
                  rw [show applyFile fs pf = some fs by
                    simp [applyFile, hrm, hrn, hg, had]] at h
                  cases h
                  rfl

theorem applyAll_frame {q : String} :
    ∀ (ps : List FilePatch) (fs : FS),
      (∀ pf ∈ ps, q ≠ pf.path ∧ q ≠ pf.target_file) →
      fsGet (applyAll fs ps).1 q = fsGet fs q := by
  intro ps
  induction ps with
  | nil => intro fs _; rfl
  | cons pf ps ih =>
      intro fs hall
      simp only [applyAll]
      cases hg : applyFile fs pf with
      | some fs1 =>
          show fsGet (applyAll fs1 ps).1 q = fsGet fs q
          rw [ih fs1 (fun p hp => hall p (List.mem_cons_of_mem _ hp))]
          exact applyFile_frame hg (hall pf (List.mem_cons_self _ _)).1
            (hall pf (List.mem_cons_self _ _)).2
      | none =>
          show fsGet (fs, false).1 q = fsGet fs q
          rfl

/-- C6 counterexample: `interface.json` lives under `base_dir` and is itself
a patch target, so a FilePatch can rewrite its version line mid-loop before
a later FilePatch fails — the run returns failure, yet the manifest's
`version` field has changed from `v1` to `v9`, contradicting "whenever
apply fails, the manifest's `version` field is left unchanged". -/
theorem manifest_changed_on_failure_counterexample :
    (applyPatch demoLoad demoSave cexWorld "."
        [cexManifestPatch, cexFailingPatch] "v9").1 = false ∧
    fsGet ((applyPatch demoLoad demoSave cexWorld "."
          [cexManifestPatch, cexFailingPatch] "v9").2).fs "interface.json"
      = some ["v9", "u"] ∧
    fsGet cexWorld.fs "interface.json" = some ["v1", "u"] ∧
    (demoLoad ["v9", "u"]).map Manifest.version = some "v9" ∧
    (demoLoad ["v1", "u"]).map Manifest.version = some "v1" ∧
    ("v9" : String) ≠ "v1" :=
  ⟨by decide, by decide, by decide, by decide, by decide, by decide⟩

/-- C6 amended: the orchestrator's own rewrite of the version field (lines
304-309) runs only after every FilePatch applied successfully; and provided
no FilePatch in the set targets the manifest path `interface.json` (whose
loadable content is `mls`), the run returns success exactly when the
per-file loop succeeded, a failed run leaves the manifest file — hence its
`version` field — byte-identical, and a successful run stores the manifest
re-encoded with `version` replaced by the latest version.  (When the patch
set does target `interface.json`, an in-loop FilePatch can change the
version field even though the run later fails.) -/
theorem manifest_version_atomicity_amended
    (load : List String → Option Manifest) (save : Manifest → List String)
    (w : World) (base_dir latest : String) (ps : List FilePatch)
    (mls : List String) (m : Manifest)
    (hfr : ∀ pf ∈ ps,
      ("interface.json" : String) ≠ pf.path ∧
      ("interface.json" : String) ≠ pf.target_file)
    (hm : fsGet w.fs "interface.json" = some mls)
    (hl : load mls = some m) :
    (applyPatch load save w base_dir ps latest).1 = (applyAll w.fs ps).2 ∧
    fsGet ((applyPatch load save w base_dir ps latest).2).fs "interface.json"
      = cond (applyAll w.fs ps).2
          (some (save { m with version := latest }))
          (some mls) := by
  have hfr2 : fsGet (applyAll w.fs ps).1 "interface.json" = some mls := by
    rw [applyAll_frame ps w.fs hfr, hm]
  unfold applyPatch applyPatchBody tryFinallyRestore
  cases hok : (applyAll w.fs ps).2 with
  | false => simp [hok, hfr2]
  | true => simp [hok, hfr2, hl, fsGet_fsSet_self]

theorem manifest_version_atomicity_amended_witness :
    (("interface.json" : String) ≠ amPatch.path ∧
      ("interface.json" : String) ≠ amPatch.target_file) ∧
    fsGet amWorld.fs "interface.json" = some ["v1", "u"] ∧
    demoLoad ["v1", "u"] = some { version := "v1", url := "u" } ∧
    ((applyPatch demoLoad demoSave amWorld "." [amPatch] "v2").1
        = (applyAll amWorld.fs [amPatch]).2 ∧
      fsGet ((applyPatch demoLoad demoSave amWorld "." [amPatch] "v2").2).fs
          "interface.json"
        = cond (applyAll amWorld.fs [amPatch]).2
            (some (demoSave { version := "v2", url := "u" }))
            (some ["v1", "u"])) :=
  ⟨by decide, by decide, by decide,
    manifest_version_atomicity_amended demoLoad demoSave amWorld "." "v2"
      [amPatch] ["v1", "u"] { version := "v1", url := "u" }
      (by decide) (by decide) (by decide)⟩

/-- C10: whatever `apply_patch` does — success, a tolerated skip, a failing
file patch, or a failing manifest load after the loop — the `finally`
clause restores the process working directory, so the working directory
after the call equals the one at the time of the call. -/
theorem cwd_restored (load : List String → Option Manifest)
    (save : Manifest → List String) (w : World) (base_dir : String)
    (ps : List FilePatch) (latest : String) :
    ((applyPatch load save w base_dir ps latest).2).cwd = w.cwd := by
  unfold applyPatch applyPatchBody tryFinallyRestore
  cases hok : (applyAll w.fs ps).2 with
  | false => simp [hok]
  | true =>
      cases hg : fsGet (applyAll w.fs ps).1 "interface.json" with
      | none => simp [hok, hg]
      | some ls =>
          cases hl : load ls with
          | none => simp [hok, hg, hl]
          | some m => simp [hok, hg, hl]

theorem replaceFuel_congr {pat rep : List Char} (hp : pat ≠ []) :
    ∀ (n m : Nat) (s : List Char), s.length ≤ n → s.length ≤ m →
      replaceFuel pat rep n s = replaceFuel pat rep m s := by
  intro n
  induction n with
  | zero =>
      intro m s hn _
      have hs : s = [] := List.eq_nil_of_length_eq_zero (Nat.le_zero.mp hn)
      subst hs
      cases m <;> rfl
  | succ n ih =>
      intro m s hn hm
      cases s with
      | nil => cases m <;> rfl
      | cons c s =>
          cases m with
          | zero => simp at hm
          | succ m =>
              have hk : 0 < pat.length := List.length_pos.mpr hp
              have hstep : ∀ (k : Nat),
                  replaceFuel pat rep (k + 1) (c :: s)
                    = if pat.isPrefixOf (c :: s) then
                        rep ++ replaceFuel pat rep k ((c :: s).drop pat.length)
                      else c :: replaceFuel pat rep k s := fun k => rfl
              rw [hstep n, hstep m]
              by_cases hpre : pat.isPrefixOf (c :: s) = true
              · rw [if_pos hpre, if_pos hpre]
                have h1 : ((c :: s).drop pat.length).length ≤ n := by
                  rw [List.length_drop]
                  simp only [List.length_cons] at hn ⊢
                  omega
                have h2 : ((c :: s).drop pat.length).length ≤ m := by
                  rw [List.length_drop]
                  simp only [List.length_cons] at hm ⊢
                  omega
                rw [ih m _ h1 h2]
              · rw [if_neg hpre, if_neg hpre]
                have h1 : s.length ≤ n := by
                  simp only [List.length_cons] at hn
                  omega
                have h2 : s.length ≤ m := by
                  simp only [List.length_cons] at hm
                  omega
                rw [ih m s h1 h2]

theorem replaceFuel_eq_replaceAll {pat rep : List Char} (hp : pat ≠ [])
    (n : Nat) (s : List Char) (h : s.length ≤ n) :
    replaceFuel pat rep n s = replaceAll pat rep s :=
  replaceFuel_congr hp n s.length s h (Nat.le_refl _)

theorem isPre_boundary {pat : List Char} (hnl : ('\n' : Char) ∉ pat) :
    ∀ (a b : List Char),
      pat.isPrefixOf (a ++ '\n' :: b) = pat.isPrefixOf a := by
  induction pat with
  | nil => intro a b; cases a <;> rfl
  | cons p pt ih =>
      intro a b
      cases a with
      | nil =>
          have hpn : (p == '\n') = false :=
            beq_eq_false_iff_ne.mpr
              (fun h => hnl (h ▸ List.mem_cons_self _ _))
          show List.isPrefixOf (p :: pt) ('\n' :: b) = _
          simp only [List.isPrefixOf, hpn, Bool.false_and]
      | cons x a =>
          show List.isPrefixOf (p :: pt) (x :: (a ++ '\n' :: b)) = _
          simp only [List.isPrefixOf]
          rw [ih (fun hm => hnl (List.mem_cons_of_mem _ hm)) a b]

theorem replaceAll_newline_cons {pat rep : List Char} (hp : pat ≠ [])
    (hnl : ('\n' : Char) ∉ pat) (b : List Char) :
    replaceAll pat rep ('\n' :: b) = '\n' :: replaceAll pat rep b := by
  have hpre : pat.isPrefixOf ('\n' :: b) = false := by
    cases pat with
    | nil => exact absurd rfl hp
    | cons p pt =>
        have hpn : (p == '\n') = false :=
          beq_eq_false_iff_ne.mpr
            (fun h => hnl (h ▸ List.mem_cons_self _ _))
        simp only [List.isPrefixOf, hpn, Bool.false_and]
  show replaceFuel pat rep (b.length + 1) ('\n' :: b) = _
  rw [show replaceFuel pat rep (b.length + 1) ('\n' :: b)
      = if pat.isPrefixOf ('\n' :: b) then
          rep ++ replaceFuel pat rep b.length (('\n' :: b).drop pat.length)
        else '\n' :: replaceFuel pat rep b.length b from rfl]
  rw [hpre]
  rfl

theorem replaceAll_split {pat rep : List Char} (hp : pat ≠ [])
    (hnl : ('\n' : Char) ∉ pat) :
    ∀ (N : Nat) (a b : List Char), a.length ≤ N →
      replaceAll pat rep (a ++ '\n' :: b)
        = replaceAll pat rep a ++ '\n' :: replaceAll pat rep b := by
  intro N
  induction N with
  | zero =>
      intro a b ha
      have hs : a = [] := List.eq_nil_of_length_eq_zero (Nat.le_zero.mp ha)
      subst hs
      rw [List.nil_append, show replaceAll pat rep ([] : List Char) = []
        from rfl, List.nil_append]
      exact replaceAll_newline_cons hp hnl b
  | succ N ih =>
      intro a b ha
      cases a with
      | nil =>
          rw [List.nil_append, show replaceAll pat rep ([] : List Char) = []
            from rfl, List.nil_append]
          exact replaceAll_newline_cons hp hnl b
      | cons c a =>
          have hk : 0 < pat.length := List.length_pos.mpr hp
          have hb : pat.isPrefixOf (c :: (a ++ '\n' :: b))
              = pat.isPrefixOf (c :: a) := isPre_boundary hnl (c :: a) b
          have hle : a.length ≤ N := by
            simp only [List.length_cons] at ha
            omega
          show replaceFuel pat rep ((c :: (a ++ '\n' :: b)).length)
              (c :: (a ++ '\n' :: b)) = _
          rw [List.length_cons]
          rw [show replaceFuel pat rep ((a ++ '\n' :: b).length + 1)
              (c :: (a ++ '\n' :: b))
              = if pat.isPrefixOf (c :: (a ++ '\n' :: b)) then
                  rep ++ replaceFuel pat rep (a ++ '\n' :: b).length
                    ((c :: (a ++ '\n' :: b)).drop pat.length)
                else c :: replaceFuel pat rep (a ++ '\n' :: b).length
                  (a ++ '\n' :: b) from rfl]
      
          rw [hb]
          by_cases hpre : pat.isPrefixOf (c :: a) = true
          · rw [if_pos hpre]
            have hkle : pat.length ≤ a.length + 1 := by
              have hpref := List.isPrefixOf_iff_prefix.mp hpre
              have := hpref.length_le
              simpa using this
            have hdrop : (c :: (a ++ '\n' :: b)).drop pat.length
                = (c :: a).drop pat.length ++ '\n' :: b := by
              rw [show c :: (a ++ '\n' :: b) = (c :: a) ++ '\n' :: b
                from rfl]
              rw [List.drop_append_eq_append_drop,
                show pat.length - (c :: a).length = 0 by
                  simp only [List.length_cons]; omega,
                List.drop_zero]
            have hdl : ((c :: a).drop pat.length).length
                = a.length + 1 - pat.length := by
              rw [List.length_drop, List.length_cons]
            have h1 : ((c :: a).drop pat.length ++ '\n' :: b).length
                ≤ (a ++ '\n' :: b).length := by
              simp only [List.length_append, List.length_cons, hdl]
              omega
            rw [hdrop, replaceFuel_eq_replaceAll hp _ _ h1]
            have hN : ((c :: a).drop pat.length).length ≤ N := by
              rw [hdl]
              omega
            rw [ih _ b hN]
            show _ = replaceFuel pat rep (c :: a).length (c :: a)
              ++ '\n' :: replaceAll pat rep b
            rw [List.length_cons]
            rw [show replaceFuel pat rep (a.length + 1) (c :: a)
                = if pat.isPrefixOf (c :: a) then
                    rep ++ replaceFuel pat rep a.length
                      ((c :: a).drop pat.length)
                  else c :: replaceFuel pat rep a.length a from rfl]
            rw [if_pos hpre]
            have h2 : ((c :: a).drop pat.length).length ≤ a.length := by
              rw [hdl]
              omega
            rw [replaceFuel_eq_replaceAll hp _ _ h2, List.append_assoc]
          · rw [if_neg hpre]
            have hih := ih a b hle
            show c :: replaceFuel pat rep (a ++ '\n' :: b).length
                (a ++ '\n' :: b)
              = replaceFuel pat rep (c :: a).length (c :: a)
                ++ '\n' :: replaceAll pat rep b
            rw [List.length_cons]
            rw [show replaceFuel pat rep (a.length + 1) (c :: a)
                = if pat.isPrefixOf (c :: a) then
                    rep ++ replaceFuel pat rep a.length
                      ((c :: a).drop pat.length)
                  else c :: replaceFuel pat rep a.length a from rfl]
            rw [if_neg hpre]
            show c :: replaceAll pat rep (a ++ '\n' :: b) = _
            rw [hih]
            rfl

/-- C9 amended: the normalization of `process_diff_content` is a global
textual replacement of `"assets/"` over the whole diff content — it acts on
every line of the text uniformly, diff body lines (Context/Added/Removed
line text) exactly as much as the `---`/`+++` path headers. -/
theorem normalize_linewise_amended (ls : List (List Char)) :
    processDiffContent (joinNL ls) = joinNL (ls.map processDiffContent) := by
  induction ls with
  | nil => rfl
  | cons l ls ih =>
      cases ls with
      | nil => rfl
      | cons l2 ls2 =>
          have hp : assetsPat ≠ [] := by decide
          have hnl : ('\n' : Char) ∉ assetsPat := by decide
          show processDiffContent (l ++ '\n' :: joinNL (l2 :: ls2)) = _
          unfold processDiffContent
          rw [replaceAll_split hp hnl l.length l (joinNL (l2 :: ls2))
            (Nat.le_refl _)]
          unfold processDiffContent at ih
          rw [ih]
          rfl

/-- C9 counterexample: `process_diff_content` replaces `"assets/"` inside a
diff body line as well — the added line `+keep assets/x` comes out as
`+keep x`, so the content of body lines is altered by the normalization,
not only the stored source/target paths. -/
theorem normalize_alters_body_counterexample :
    processDiffContent
        (joinNL ["--- a/assets/f.txt".toList, "+++ b/assets/f.txt".toList,
          "+keep assets/x".toList])
      = joinNL ["--- a/f.txt".toList, "+++ b/f.txt".toList,
          "+keep x".toList] ∧
    processDiffContent "+keep assets/x".toList ≠ "+keep assets/x".toList :=
  ⟨by decide, by decide⟩
